import Mathlib

/-!
Verification of the core logic of a quiz application (`app.py`).

Python strings are modelled as lists of Unicode codepoints (`List Nat`);
`ofStr` converts a Lean string literal to this representation so that
concrete scenarios can be written readably.  Python string operations used
by the program are embedded one by one:

* `str.replace(pat, "")` for the one-character patterns `" "` and `"$"` is
  `removeChar`, and for the pattern `"**"` it is `removeStarStar`
  (left-to-right scan removing non-overlapping occurrences, exactly as
  CPython does);
* `str.lower()` is `pyLower` (ASCII range; the Korean text this program
  handles is untouched by lowering);
* `str.strip()` is `pyStrip` (drop whitespace codepoints from both ends);
* `str.split()` with no argument and `re.split` on a delimiter class
  followed by dropping empty pieces are both `splitRuns`;
* substring containment (`Series.str.contains` with an escaped literal
  pattern) is `isSubstr`.

Floating point only enters through `round(correct/total*100, 1)`; arithmetic
is embedded exactly over `Nat` with the rate kept in tenths of a percent,
rounded half-to-even as CPython's `round` does.
-/

/-- Python strings as lists of Unicode codepoints. -/
abbrev Str := List Nat

/-- Convert a Lean string literal to its codepoint list. -/
def ofStr (s : String) : Str := s.data.map Char.toNat

/-- The codepoints Python's `str.strip()` / `str.split()` treat as whitespace. -/
def pySpaces : List Nat :=
  [9, 10, 11, 12, 13, 28, 29, 30, 31, 32, 133, 160, 5760,
   8192, 8193, 8194, 8195, 8196, 8197, 8198, 8199, 8200, 8201, 8202,
   8232, 8233, 8239, 8287, 12288]

/-- Whitespace test on a codepoint. -/
def isSpaceCp (n : Nat) : Bool := pySpaces.contains n

/-- Remove trailing whitespace (the right half of Python's `str.strip()`). -/
def pyRstrip : Str → Str
  | [] => []
  | c :: rest =>
    if pyRstrip rest = [] ∧ isSpaceCp c = true then [] else c :: pyRstrip rest

/-- Python's `str.strip()`: drop whitespace from both ends. -/
def pyStrip (s : Str) : Str := pyRstrip (s.dropWhile isSpaceCp)

/-- Python's `str.lower()` on one codepoint (ASCII letters). -/
def lowerCp (n : Nat) : Nat := if 65 ≤ n ∧ n ≤ 90 then n + 32 else n

/-- Python's `str.lower()`. -/
def pyLower (s : Str) : Str := s.map lowerCp

/-- Python's `str.replace(c, "")` for a single-character pattern `c`. -/
def removeChar (a : Nat) (s : Str) : Str := s.filter (fun c => decide (c ≠ a))

/-- Python's `str.replace("**", "")`: scan left to right, removing
non-overlapping occurrences of two consecutive asterisks (codepoint 42). -/
def removeStarStar : Str → Str
  | [] => []
  | [a] => [a]
  | a :: b :: r =>
    if a = 42 ∧ b = 42 then removeStarStar r
    else a :: removeStarStar (b :: r)

/-- Two consecutive asterisks (codepoint 42) occur somewhere in the string.
Support definition for reasoning about `removeStarStar`. -/
def hasDS : Str → Bool
  | [] => false
  | [_] => false
  | a :: b :: r => (decide (a = 42) && decide (b = 42)) || hasDS (b :: r)

/-- `normalize_ans` from `app.py`:
`s2.replace(" ", "").replace("$", "").replace("**", "").lower().strip()`,
with `None` mapped to the empty string. -/
def normalize_ans (s : Option Str) : Str :=
  match s with
  | none => []
  | some t => pyStrip (pyLower (removeStarStar (removeChar 36 (removeChar 32 t))))

/-- Does `pat` occur at the start of `s`? (Helper for substring search.) -/
def startsWith : Str → Str → Bool
  | [], _ => true
  | _ :: _, [] => false
  | a :: as, b :: bs => a == b && startsWith as bs

/-- Does `pat` occur contiguously anywhere in `s`?  Embeds
`Series.str.contains(re.escape(token))`: after `re.escape` the pattern is a
literal, so the regex search is plain substring containment. -/
def isSubstr (pat : Str) : Str → Bool
  | [] => startsWith pat []
  | c :: rest => startsWith pat (c :: rest) || isSubstr pat rest

/-- Helper for `splitRuns`: `acc` holds the reversed current run of
non-delimiter codepoints. -/
def splitRunsAux (d : Nat → Bool) : Str → Str → List Str
  | [], acc => if acc = [] then [] else [acc.reverse]
  | c :: rest, acc =>
    if d c then
      if acc = [] then splitRunsAux d rest []
      else acc.reverse :: splitRunsAux d rest []
    else splitRunsAux d rest (c :: acc)

/-- Split on maximal runs of delimiter codepoints, dropping empty pieces.
This is Python's `str.split()` (with `d := isSpaceCp`) and also
`re.split(r"[;\n,]+", s)` followed by skipping empty parts (the program
skips them with `if not u: continue`). -/
def splitRuns (d : Nat → Bool) (s : Str) : List Str := splitRunsAux d s []

/-- A row of the question sheet after `load_sheet` (all cells are strings). -/
structure Question where
  id : Str
  level : Str
  topic : Str
  question : Str
  answer : Str
  image : Str
deriving DecidableEq

/-- The four concrete difficulty levels; `filter_df` applies the level
condition exactly when the requested level is one of these. -/
def levelsFour : List Str := [ofStr "하", ofStr "중", ofStr "상", ofStr "최상"]

/-- The level condition of `filter_df`:
`if level in ("하","중","상","최상"): cond &= (df["level"] == level)`. -/
def levelOK (level : Str) (q : Question) : Bool :=
  if level ∈ levelsFour then decide (q.level = level) else true

/-- The keyword haystack of `filter_df`:
`(topic + " " + question + " " + answer).str.lower()`. -/
def hayOf (q : Question) : Str :=
  pyLower (q.topic ++ [32] ++ q.question ++ [32] ++ q.answer)

/-- The keyword tokens of `filter_df`:
`kw = (keyword or "").strip().lower()` then `kw.split()`. -/
def kwTokens (keyword : Str) : List Str :=
  splitRuns isSpaceCp (pyLower (pyStrip keyword))

/-- The keyword condition of `filter_df`: every token must occur in the
haystack (`cond &= hay.str.contains(...)` over the token loop); an empty
token list (blank keyword) imposes no constraint, matching `if kw:`. -/
def kwOK (keyword : Str) (q : Question) : Bool :=
  (kwTokens keyword).all (fun t => isSubstr t (hayOf q))

/-- `filter_df` from `app.py`: keep the rows passing both conditions. -/
def filter_df (df : List Question) (level : Str) (keyword : Str) : List Question :=
  df.filter (fun q => levelOK level q && kwOK keyword q)

/-- The claim's reading of the keyword match: every token occurs in the
plain concatenation `topic + question + answer` (no separator), lowercased.
Stated from the spec's words, to be compared against `filter_df`. -/
def specKeywordMatch (keyword : Str) (q : Question) : Bool :=
  (kwTokens keyword).all (fun t => isSubstr t (pyLower (q.topic ++ q.question ++ q.answer)))

/-- Per-level weights `LEVEL_SCORE`; unmapped levels score 0 (`fillna(0)`). -/
def LEVEL_SCORE (lv : Str) : Nat :=
  if lv = ofStr "하" then 1
  else if lv = ofStr "중" then 3
  else if lv = ofStr "상" then 5
  else if lv = ofStr "최상" then 7
  else 0

/-- One row of the progress ledger `quiz_progress.csv`. -/
structure PRow where
  timestamp : Str
  user_name : Str
  qid : Str
  status : Str
  level : Str
deriving DecidableEq

/-- `append_progress` from `app.py`: append one row, the user name stripped.
The timestamp (`time.strftime`) is passed in as `ts`. -/
def append_progress (ledger : List PRow) (ts user qid status level : Str) : List PRow :=
  ledger ++ [⟨ts, pyStrip user, qid, status, level⟩]

/-- The statistics dictionary returned by `recompute_from_progress`.
`rateTenths` holds the rate in tenths of a percent (so `rate = rateTenths/10`),
keeping the arithmetic exact. -/
structure Stats where
  total : Nat
  correct : Nat
  wrong : Nat
  blank : Nat
  rateTenths : Nat
  score : Nat
deriving DecidableEq

/-- The all-zero statistics. -/
def zeroStats : Stats := ⟨0, 0, 0, 0, 0, 0⟩

/-- `round(correct/total*100, 1)` in tenths of a percent: round `1000*c/t`
to the nearest integer, ties to even (CPython's `round`). -/
def roundHalfEvenTenths (c t : Nat) : Nat :=
  if 2 * ((1000 * c) % t) < t then (1000 * c) / t
  else if t < 2 * ((1000 * c) % t) then (1000 * c) / t + 1
  else if ((1000 * c) / t) % 2 = 0 then (1000 * c) / t
  else (1000 * c) / t + 1

/-- The id-to-level map built by `dict(zip(problems_df["id"], problems_df["level"]))`;
later entries override earlier ones, as in a Python dict. -/
def lookupLevel (ps : List Question) (qid : Str) : Option Str :=
  ps.foldl (fun acc p => if p.id = qid then some p.level else acc) none

/-- The effective level of a ledger row inside `recompute_from_progress`:
rows whose level is blank (whitespace-only) are backfilled from the problem
sheet when one is supplied, with unresolved lookups becoming `""` (`fillna("")`). -/
def effLevel (problems : Option (List Question)) (r : PRow) : Str :=
  if pyStrip r.level = [] then
    match problems with
    | none => r.level
    | some ps =>
      match lookupLevel ps r.qid with
      | some lv => lv
      | none => []
  else r.level

/-- The ledger rows belonging to `user` (names compared stripped, as the
code strips both sides before the equality test). -/
def userRows (ledger : List PRow) (user : Str) : List PRow :=
  ledger.filter (fun r => decide (pyStrip r.user_name = pyStrip user))

/-- Status string constants. -/
def sCorrect : Str := ofStr "correct"

/-- Status string constant for a blank answer. -/
def sBlank : Str := ofStr "blank"

/-- Status string constant for a wrong answer. -/
def sWrong : Str := ofStr "wrong"

/-- `recompute_from_progress` from `app.py`.  The ledger is `none` when the
progress file is missing or unreadable (the `except` branch reads it as an
empty frame); `some rows` is its parsed content. -/
def recompute_from_progress (ledger : Option (List PRow)) (user : Str)
    (problems : Option (List Question)) : Stats :=
  let prog := match ledger with | none => [] | some l => l
  if prog = [] then zeroStats
  else
    let mine := userRows prog user
    if mine = [] then zeroStats
    else
      let total := mine.length
      let correct := (mine.filter (fun r => decide (r.status = sCorrect))).length
      let blank := (mine.filter (fun r => decide (r.status = sBlank))).length
      let wrong := total - correct - blank
      let rate := roundHalfEvenTenths correct total
      let score :=
        ((mine.filter (fun r => decide (r.status = sCorrect))).map
          (fun r => LEVEL_SCORE (effLevel problems r))).sum
      ⟨total, correct, wrong, blank, rate, score⟩

/-- One row of the ranking table `quiz_ranking.csv`. -/
structure RRow where
  timestamp : Str
  user_name : Str
  stats : Stats
deriving DecidableEq

/-- `replace_ranking` from `app.py`: read the table (`none` on a read
failure, treated as empty), strip the stored names, drop every row whose
stripped name equals the stripped user, and append one fresh row.  The
timestamp is passed in as `ts`. -/
def replace_ranking (table : Option (List RRow)) (ts user : Str) (stats : Stats) : List RRow :=
  let rank := (match table with | none => [] | some t => t).map
    (fun (r : RRow) => { r with user_name := pyStrip r.user_name })
  let rank := rank.filter (fun r => decide (r.user_name ≠ pyStrip user))
  rank ++ [⟨ts, pyStrip user, stats⟩]

/-- The rows of a ranking table belonging to `user` (names compared stripped). -/
def rowsFor (t : List RRow) (user : Str) : List RRow :=
  t.filter (fun r => decide (pyStrip r.user_name = pyStrip user))

/-- At most one row per user name (modulo stripping): all stripped names
are pairwise distinct. -/
def uniqNames (t : List RRow) : Prop :=
  List.Pairwise (fun a b => pyStrip a.user_name ≠ pyStrip b.user_name) t

/-- Stable insertion into a descending-sorted list: walk past the rows with
strictly greater `correct` count and insert before the first row whose
count is not greater.  Inserting the original head of the list this way
reproduces the unique stable descending order of pandas
`sort_values(by="correct", ascending=False, kind="mergesort")`. -/
def insertDesc (x : RRow) : List RRow → List RRow
  | [] => [x]
  | y :: ys =>
    if x.stats.correct < y.stats.correct then y :: insertDesc x ys
    else x :: y :: ys

/-- Stable descending sort by `correct` count (see `insertDesc`). -/
def sortDesc : List RRow → List RRow
  | [] => []
  | x :: xs => insertDesc x (sortDesc xs)

/-- `load_ranking_sorted` from `app.py`: `none` models a read failure
(empty result); otherwise sort stably descending by `correct` and attach
the 1-based position column `순위` (`df.insert(0, "순위", df.index + 1)`). -/
def load_ranking_sorted (table : Option (List RRow)) : List (Nat × RRow) :=
  match table with
  | none => []
  | some l =>
    if l = [] then []
    else
      let s := sortDesc l
      ((List.range s.length).map (fun i => i + 1)).zip s

/-- The grading expression of `commit_current_answer_and_mark_next`:
`status = "correct" if (ua and ua == gt) else ("blank" if ua == "" else "wrong")`
where `ua = normalize_ans(raw input)` and `gt = normalize_ans(row answer)`. -/
def deriveStatus (uaRaw : Option Str) (gtRaw : Str) : Str :=
  if normalize_ans uaRaw ≠ [] ∧ normalize_ans uaRaw = normalize_ans (some gtRaw) then sCorrect
  else if normalize_ans uaRaw = [] then sBlank
  else sWrong

/-- `st.session_state.seen_ids.add(...)` on the seen set, modelled as a
duplicate-free list. -/
def addSeen (seen : List Str) (qid : Str) : List Str :=
  if qid ∈ seen then seen else seen ++ [qid]

/-- The candidate pool used at both selection sites (home start and quiz
continuation): `df_filtered[~df_filtered["id"].isin(seen_ids)]`. -/
def candidatePool (df : List Question) (level keyword : Str) (seen : List Str) : List Question :=
  (filter_df df level keyword).filter (fun q => decide (q.id ∉ seen))

/-- A uniformly random `unseen.sample(1)` draw, modelled by an arbitrary
index `k` reduced modulo the pool size; `none` when the pool is empty. -/
def pick_next (df : List Question) (level keyword : Str) (seen : List Str) (k : Nat) :
    Option Question :=
  if h : (candidatePool df level keyword seen).length = 0 then none
  else
    some ((candidatePool df level keyword seen).get
      ⟨k % (candidatePool df level keyword seen).length, Nat.mod_lt _ (Nat.pos_of_ne_zero h)⟩)

/-- Where the session goes after committing an answer in the quiz stage. -/
inductive NextOutcome where
  | toResult
  | toQuiz (q : Question)
deriving DecidableEq

/-- `commit_current_answer_and_mark_next` from `app.py`: grade the current
question, append the ledger row, add the question to the seen set, then
either finish, or pick the next question, falling back to the result stage
when the pool is exhausted.  Returns the new ledger, the new seen set and
the outcome; `ts` stands for the wall-clock timestamp and `k` for the
random draw. -/
def commit_current_answer_and_mark_next (df : List Question) (level keyword : Str)
    (ledger : List PRow) (seen : List Str) (cur : Question) (user ts : Str)
    (uaRaw : Option Str) (finish : Bool) (k : Nat) :
    List PRow × List Str × NextOutcome :=
  let status := deriveStatus uaRaw cur.answer
  let ledger2 := append_progress ledger ts user cur.id status cur.level
  let seen2 := addSeen seen cur.id
  if finish then (ledger2, seen2, NextOutcome.toResult)
  else
    match pick_next df level keyword seen2 k with
    | none => (ledger2, seen2, NextOutcome.toResult)
    | some q => (ledger2, seen2, NextOutcome.toQuiz q)

/-- Delimiters of the image cell: `;`, newline, `,`. -/
def isImgDelim (n : Nat) : Bool := n == 59 || n == 10 || n == 44

/-- The per-entry step of `_resolve_image_items`: strip, skip empties and
the placeholders `nan`/`none`/`-`, keep the entry verbatim when its
lowercase form starts with `http://` or `https://`, drop it otherwise. -/
def resolveImageEntry (p : Str) : Option Str :=
  if pyStrip p = [] then none
  else if pyLower (pyStrip p) = ofStr "nan" ∨ pyLower (pyStrip p) = ofStr "none"
      ∨ pyLower (pyStrip p) = ofStr "-" then none
  else if startsWith (ofStr "http://") (pyLower (pyStrip p))
      || startsWith (ofStr "https://") (pyLower (pyStrip p)) then some (pyStrip p)
  else none

/-- `_resolve_image_items` from `app.py` (named without the leading
underscore): split the raw cell on `;`/`,`/newline runs and clean each
entry with `resolveImageEntry`. -/
def resolve_image_items (raw : Str) : List Str :=
  if raw = [] then []
  else (splitRuns isImgDelim (pyStrip raw)).filterMap resolveImageEntry

/-! ### Concrete fixtures used in scenario statements -/

/-- Concrete question for the level-filter claim. -/
def q6 : Question := ⟨ofStr "id1", ofStr "하", ofStr "t", ofStr "q", ofStr "a", []⟩

/-- Concrete question for the keyword-filter claim: topic `"ab"`, question
`"cd"`, answer `""`. -/
def q4 : Question := ⟨ofStr "id1", ofStr "하", ofStr "ab", ofStr "cd", ofStr "", []⟩

/-- Concrete question for the selection claim. -/
def q5 : Question := ⟨ofStr "i5", ofStr "하", ofStr "t", ofStr "q", ofStr "a", []⟩

/-- Concrete ledger for the recompute claim: the spec's scenario
`(u1,q1,correct,하), (u1,q2,wrong,중), (u1,q3,blank,상)`. -/
def ledger2 : List PRow :=
  [⟨ofStr "t1", ofStr "u1", ofStr "q1", sCorrect, ofStr "하"⟩,
   ⟨ofStr "t2", ofStr "u1", ofStr "q2", sWrong, ofStr "중"⟩,
   ⟨ofStr "t3", ofStr "u1", ofStr "q3", sBlank, ofStr "상"⟩]

/-- Concrete ranking table for the replace claim. -/
def rank3 : List RRow := [⟨ofStr "t0", ofStr "bob", zeroStats⟩]

/-- Spec scenario row `(a, correct=3)`. -/
def rrA : RRow := ⟨ofStr "ta", ofStr "a", { zeroStats with correct := 3 }⟩

/-- Spec scenario row `(b, correct=5)`. -/
def rrB : RRow := ⟨ofStr "tb", ofStr "b", { zeroStats with correct := 5 }⟩

/-- Two rows tied at `correct=5`, for the rank-column counterexample. -/
def rrC1 : RRow := ⟨ofStr "t1", ofStr "c1", { zeroStats with correct := 5 }⟩

/-- Second tied row (see `rrC1`). -/
def rrC2 : RRow := ⟨ofStr "t2", ofStr "c2", { zeroStats with correct := 5 }⟩

/-! ### Helper lemmas for the normalizer -/

theorem mem_dropWhile {p : Nat → Bool} {x : Nat} :
    ∀ {s : Str}, x ∈ s.dropWhile p → x ∈ s := by
  intro s
  induction s with
  | nil => simp [List.dropWhile]
  | cons c rest ih =>
    simp only [List.dropWhile]
    split
    · intro h; exact List.mem_cons_of_mem _ (ih h)
    · exact fun h => h

theorem mem_pyRstrip {x : Nat} : ∀ {s : Str}, x ∈ pyRstrip s → x ∈ s := by
  intro s
  induction s with
  | nil => simp [pyRstrip]
  | cons c rest ih =>
    simp only [pyRstrip]
    split
    · simp
    · intro h
      rcases List.mem_cons.mp h with h1 | h2
      · exact h1 ▸ List.mem_cons_self _ _
      · exact List.mem_cons_of_mem _ (ih h2)

theorem mem_pyStrip {x : Nat} {s : Str} (h : x ∈ pyStrip s) : x ∈ s :=
  mem_dropWhile (mem_pyRstrip h)

theorem pyRstrip_shape (c : Nat) (s : Str) :
    pyRstrip (c :: s) = [] ∨ ∃ w, pyRstrip (c :: s) = c :: w := by
  simp only [pyRstrip]
  split
  · exact Or.inl rfl
  · exact Or.inr ⟨pyRstrip s, rfl⟩

theorem pyRstrip_idem : ∀ (s : Str), pyRstrip (pyRstrip s) = pyRstrip s := by
  intro s
  induction s with
  | nil => simp [pyRstrip]
  | cons c rest ih =>
    by_cases h : pyRstrip rest = [] ∧ isSpaceCp c = true
    · rw [show pyRstrip (c :: rest) = [] by simp only [pyRstrip]; rw [if_pos h]]
      simp [pyRstrip]
    · rw [show pyRstrip (c :: rest) = c :: pyRstrip rest by
        simp only [pyRstrip]; rw [if_neg h]]
      simp only [pyRstrip]
      rw [ih, if_neg h]

theorem dropWhile_head_false {p : Nat → Bool} :
    ∀ {s : Str} {c : Nat} {w : Str}, s.dropWhile p = c :: w → p c = false := by
  intro s
  induction s with
  | nil => intro c w h; simp [List.dropWhile] at h
  | cons a rest ih =>
    intro c w h
    simp only [List.dropWhile] at h
    cases hp : p a with
    | true => rw [hp] at h; exact ih h
    | false =>
      rw [hp] at h
      cases h
      exact hp

theorem pyStrip_shape (s : Str) :
    pyStrip s = [] ∨ ∃ c w, pyStrip s = c :: w ∧ isSpaceCp c = false := by
  unfold pyStrip
  cases hd : s.dropWhile isSpaceCp with
  | nil => exact Or.inl rfl
  | cons c w =>
    have hc : isSpaceCp c = false := dropWhile_head_false hd
    rcases pyRstrip_shape c w with h1 | ⟨w2, h2⟩
    · exact Or.inl h1
    · exact Or.inr ⟨c, w2, h2, hc⟩

theorem pyStrip_idem (s : Str) : pyStrip (pyStrip s) = pyStrip s := by
  rcases pyStrip_shape s with h | ⟨c, w, h, hc⟩
  · rw [h]; rfl
  · rw [h]
    show pyRstrip ((c :: w).dropWhile isSpaceCp) = c :: w
    rw [List.dropWhile_cons_of_neg (by simp [hc])]
    have h2 : pyRstrip (pyStrip s) = pyStrip s := pyRstrip_idem _
    rw [h] at h2
    exact h2

theorem lowerCp_idem (n : Nat) : lowerCp (lowerCp n) = lowerCp n := by
  unfold lowerCp
  split_ifs <;> omega

theorem lowerCp_eq_low {n k : Nat} (hk : k < 97) (h : lowerCp n = k) : n = k := by
  unfold lowerCp at h
  split_ifs at h <;> omega

theorem mem_pyLower_fixed {c : Nat} {s : Str} (h : c ∈ pyLower s) : lowerCp c = c := by
  rcases List.mem_map.mp h with ⟨d, _, hd⟩
  rw [← hd]; exact lowerCp_idem d

theorem not_mem_removeChar (a : Nat) (s : Str) : a ∉ removeChar a s := by
  intro h
  have := List.of_mem_filter h
  simp at this

theorem mem_removeChar {x a : Nat} {s : Str} (h : x ∈ removeChar a s) : x ∈ s :=
  List.mem_of_mem_filter h

theorem removeChar_eq_self {a : Nat} {s : Str} (h : a ∉ s) : removeChar a s = s :=
  List.filter_eq_self.mpr (fun x hx => by
    simp only [decide_eq_true_eq]
    exact fun he => h (he ▸ hx))

theorem mem_removeStarStar {x : Nat} : ∀ {s : Str}, x ∈ removeStarStar s → x ∈ s := by
  intro s
  induction s using removeStarStar.induct with
  | case1 => simp [removeStarStar]
  | case2 a => simp [removeStarStar]
  | case3 a b r h ih =>
    simp only [removeStarStar, if_pos h]
    intro hx
    exact List.mem_cons_of_mem _ (List.mem_cons_of_mem _ (ih hx))
  | case4 a b r h ih =>
    simp only [removeStarStar, if_neg h]
    intro hx
    rcases List.mem_cons.mp hx with h1 | h2
    · exact h1 ▸ List.mem_cons_self _ _
    · exact List.mem_cons_of_mem _ (ih h2)

theorem hasDS_tail {a : Nat} {l : Str} (h : hasDS (a :: l) = false) : hasDS l = false := by
  cases l with
  | nil => rfl
  | cons b r =>
    simp only [hasDS, Bool.or_eq_false_iff] at h
    exact h.2

theorem removeStarStar_cons_ne {b : Nat} (hb : b ≠ 42) (r : Str) :
    ∃ w, removeStarStar (b :: r) = b :: w := by
  cases r with
  | nil => exact ⟨[], rfl⟩
  | cons c w =>
    refine ⟨removeStarStar (c :: w), ?_⟩
    have : ¬ (b = 42 ∧ c = 42) := fun hc => hb hc.1
    simp [removeStarStar, if_neg this]

theorem hasDS_removeStarStar : ∀ (s : Str), hasDS (removeStarStar s) = false := by
  intro s
  induction s using removeStarStar.induct with
  | case1 => rfl
  | case2 a => rfl
  | case3 a b r h ih => simpa [removeStarStar, if_pos h] using ih
  | case4 a b r h ih =>
    rw [show removeStarStar (a :: b :: r) = a :: removeStarStar (b :: r) by
      simp [removeStarStar, if_neg h]]
    cases hrec : removeStarStar (b :: r) with
    | nil => rfl
    | cons c w =>
      simp only [hasDS, Bool.or_eq_false_iff, Bool.and_eq_false_iff]
      refine ⟨?_, by rw [hrec] at ih; exact ih⟩
      by_cases ha : a = 42
      · have hb : b ≠ 42 := fun hb => h ⟨ha, hb⟩
        rcases removeStarStar_cons_ne hb r with ⟨w2, h2⟩
        rw [h2] at hrec
        cases hrec
        right
        simpa using hb
      · left
        simpa using ha

theorem removeStarStar_of_noDS : ∀ {s : Str}, hasDS s = false → removeStarStar s = s := by
  intro s
  induction s using removeStarStar.induct with
  | case1 => intro _; rfl
  | case2 a => intro _; rfl
  | case3 a b r h ih =>
    intro hds
    exfalso
    simp only [hasDS, Bool.or_eq_false_iff, Bool.and_eq_false_iff] at hds
    rcases hds.1 with h1 | h1 <;> simp [h.1, h.2] at h1
  | case4 a b r h ih =>
    intro hds
    rw [show removeStarStar (a :: b :: r) = a :: removeStarStar (b :: r) by
      simp [removeStarStar, if_neg h]]
    rw [ih (hasDS_tail hds)]

theorem hasDS_pyLower : ∀ {s : Str}, hasDS s = false → hasDS (pyLower s) = false := by
  have hlow : ∀ n : Nat, (lowerCp n = 42) ↔ n = 42 := by
    intro n
    constructor
    · exact lowerCp_eq_low (by omega)
    · intro h; subst h; rfl
  intro s
  induction s with
  | nil => intro _; rfl
  | cons a l ih =>
    intro h
    cases l with
    | nil => rfl
    | cons b r =>
      simp only [hasDS, Bool.or_eq_false_iff, Bool.and_eq_false_iff] at h ⊢
      refine ⟨?_, ih h.2⟩
      rcases h.1 with h1 | h1
      · left; simp only [decide_eq_false_iff_not] at h1 ⊢
        exact fun he => h1 ((hlow a).mp he)
      · right; simp only [decide_eq_false_iff_not] at h1 ⊢
        exact fun he => h1 ((hlow b).mp he)

theorem hasDS_dropWhile {p : Nat → Bool} :
    ∀ {s : Str}, hasDS s = false → hasDS (s.dropWhile p) = false := by
  intro s
  induction s with
  | nil => intro _; rfl
  | cons c rest ih =>
    intro h
    simp only [List.dropWhile]
    cases hp : p c with
    | true => exact ih (hasDS_tail h)
    | false => exact h

theorem hasDS_pyRstrip : ∀ {s : Str}, hasDS s = false → hasDS (pyRstrip s) = false := by
  intro s
  induction s with
  | nil => intro _; rfl
  | cons c rest ih =>
    intro h
    simp only [pyRstrip]
    split
    · rfl
    · cases rest with
      | nil => rfl
      | cons e rest2 =>
        rcases pyRstrip_shape e rest2 with h1 | ⟨w2, h2⟩
        · rw [h1]; rfl
        · rw [h2]
          simp only [hasDS, Bool.or_eq_false_iff, Bool.and_eq_false_iff]
          constructor
          · have hh : hasDS (c :: e :: rest2) = false := h
            simp only [hasDS, Bool.or_eq_false_iff, Bool.and_eq_false_iff] at hh
            exact hh.1
          · have h3 := ih (hasDS_tail h)
            rw [h2] at h3
            exact h3

theorem hasDS_pyStrip {s : Str} (h : hasDS s = false) : hasDS (pyStrip s) = false :=
  hasDS_pyRstrip (hasDS_dropWhile h)

theorem pyLower_eq_self {s : Str} (h : ∀ c ∈ s, lowerCp c = c) : pyLower s = s := by
  unfold pyLower
  conv_rhs => rw [show s = s.map id from (List.map_id s).symm]
  exact List.map_congr_left h

/-- C8: `normalize` is idempotent:
`normalize(normalize(x)) == normalize(x)` for every string `x`. -/
theorem normalize_ans_idem (x : Str) :
    normalize_ans (some (normalize_ans (some x))) = normalize_ans (some x) := by
  set z2 := removeStarStar (removeChar 36 (removeChar 32 x)) with hz2
  have hy : normalize_ans (some x) = pyStrip (pyLower z2) := rfl
  set y := normalize_ans (some x) with hyy
  have n1 : 32 ∉ y := by
    intro hmem
    rw [hy] at hmem
    have h2 := mem_pyStrip hmem
    rcases List.mem_map.mp h2 with ⟨d, hd, hld⟩
    have : d = 32 := lowerCp_eq_low (by omega) hld
    subst this
    exact not_mem_removeChar 32 x
      (mem_removeChar (mem_removeStarStar hd))
  have n2 : 36 ∉ y := by
    intro hmem
    rw [hy] at hmem
    have h2 := mem_pyStrip hmem
    rcases List.mem_map.mp h2 with ⟨d, hd, hld⟩
    have : d = 36 := lowerCp_eq_low (by omega) hld
    subst this
    exact not_mem_removeChar 36 (removeChar 32 x) (mem_removeStarStar hd)
  have n3 : hasDS y = false := by
    rw [hy]
    exact hasDS_pyStrip (hasDS_pyLower (hasDS_removeStarStar _))
  have n4 : ∀ c ∈ y, lowerCp c = c := by
    intro c hc
    rw [hy] at hc
    exact mem_pyLower_fixed (mem_pyStrip hc)
  have n5 : pyStrip y = y := by
    rw [hy]
    exact pyStrip_idem _
  show pyStrip (pyLower (removeStarStar (removeChar 36 (removeChar 32 y)))) = y
  rw [removeChar_eq_self n1, removeChar_eq_self n2, removeStarStar_of_noDS n3,
    pyLower_eq_self n4, n5]

/-- C1: for every submitted answer the recorded status is derived as:
blank if the normalized input is empty; correct if the normalized input
equals the normalized ground truth; wrong otherwise — and the committed
ledger row carries exactly this status, which is always one of the three
values. -/
theorem commit_status_spec (df : List Question) (level keyword : Str) (ledger : List PRow)
    (seen : List Str) (cur : Question) (user ts : Str) (uaRaw : Option Str)
    (finish : Bool) (k : Nat) :
    (commit_current_answer_and_mark_next df level keyword ledger seen cur user ts
        uaRaw finish k).1
      = append_progress ledger ts user cur.id (deriveStatus uaRaw cur.answer) cur.level
    ∧ deriveStatus uaRaw cur.answer =
        (if normalize_ans uaRaw = [] then sBlank
         else if normalize_ans uaRaw = normalize_ans (some cur.answer) then sCorrect
         else sWrong)
    ∧ (deriveStatus uaRaw cur.answer = sBlank ∨ deriveStatus uaRaw cur.answer = sCorrect
        ∨ deriveStatus uaRaw cur.answer = sWrong) := by
  have hmain : deriveStatus uaRaw cur.answer =
      (if normalize_ans uaRaw = [] then sBlank
       else if normalize_ans uaRaw = normalize_ans (some cur.answer) then sCorrect
       else sWrong) := by
    by_cases hua : normalize_ans uaRaw = []
    · unfold deriveStatus
      rw [if_neg (fun hcon => hcon.1 hua), if_pos hua, if_pos hua]
    · by_cases heq : normalize_ans uaRaw = normalize_ans (some cur.answer)
      · unfold deriveStatus
        rw [if_pos ⟨hua, heq⟩, if_neg hua, if_pos heq]
      · unfold deriveStatus
        rw [if_neg (fun hcon => heq hcon.2), if_neg hua, if_neg hua, if_neg heq]
  refine ⟨?_, hmain, ?_⟩
  · cases finish with
    | true => rfl
    | false =>
      cases hp : pick_next df level keyword (addSeen seen cur.id) k with
      | none => simp [commit_current_answer_and_mark_next, hp]
      | some q => simp [commit_current_answer_and_mark_next, hp]
  · rw [hmain]
    split_ifs <;> simp

/-- C10: when the ground-truth answer normalizes to the empty string no
submission is graded correct: an input normalizing to empty is graded
blank, and every other input is graded wrong. -/
theorem emptyGT_never_correct (uaRaw : Option Str) (gt : Str)
    (h : normalize_ans (some gt) = []) :
    deriveStatus uaRaw gt ≠ sCorrect
    ∧ (normalize_ans uaRaw = [] → deriveStatus uaRaw gt = sBlank)
    ∧ (normalize_ans uaRaw ≠ [] → deriveStatus uaRaw gt = sWrong) := by
  unfold deriveStatus
  rw [h]
  refine ⟨?_, ?_, ?_⟩
  · rw [if_neg (fun hc => hc.1 hc.2)]
    split_ifs <;> decide
  · intro hua
    rw [if_neg (fun hc => hc.1 hc.2), if_pos hua]
  · intro hua
    rw [if_neg (fun hc => hc.1 hc.2), if_neg hua]

/-- Witness for `emptyGT_never_correct` at concrete inputs: the ground
truth normalizes to empty, a nonempty answer is graded wrong and a blank
answer is graded blank. -/
theorem emptyGT_never_correct_witness :
    deriveStatus (some (ofStr "x")) (ofStr "$ **") = sWrong
    ∧ deriveStatus none (ofStr "$ **") = sBlank :=
  ⟨(emptyGT_never_correct (some (ofStr "x")) (ofStr "$ **") (by decide)).2.2 (by decide),
   (emptyGT_never_correct none (ofStr "$ **") (by decide)).2.1 (by decide)⟩

/-! ### Filter and selection -/

theorem kwOK_nil (q : Question) : kwOK [] q = true := rfl

theorem levelOK_self (q : Question) : levelOK q.level q = true := by
  unfold levelOK
  split_ifs <;> simp

/-- C6, counterexample to the claim as stated: for the level argument
`"x"` — different from the question's level `"하"` and from the sentinel
`"전체"` — the filter is not empty: the level condition is skipped for
every string outside the four concrete levels, not only for `"전체"`. -/
theorem levelFilter_counterexample :
    filter_df [q6] (ofStr "x") [] = [q6]
    ∧ filter_df [q6] (ofStr "x") [] ≠ []
    ∧ ofStr "x" ≠ q6.level
    ∧ ofStr "x" ≠ ofStr "전체" := by decide

/-- C6 (amended): with a blank keyword, `filter({q}, q.level, "")` always
contains `q`; `filter({q}, other, "")` is empty when `other` is one of the
four concrete levels `하/중/상/최상` and differs from `q.level`; and for
any `other` outside those four (the sentinel `"전체"` or any other string)
the level condition is skipped and the filter keeps `q`. -/
theorem levelFilter_spec (q : Question) :
    q ∈ filter_df [q] q.level []
    ∧ (∀ other, other ∈ levelsFour → other ≠ q.level → filter_df [q] other [] = [])
    ∧ (∀ other, other ∉ levelsFour → filter_df [q] other [] = [q]) := by
  refine ⟨?_, ?_, ?_⟩
  · simp [filter_df, List.filter_cons, levelOK_self q, kwOK_nil q]
  · intro other hmem hne
    have hlev : levelOK other q = false := by
      unfold levelOK
      rw [if_pos hmem]
      simp only [decide_eq_false_iff_not]
      exact fun he => hne (he ▸ rfl)
    simp [filter_df, List.filter_cons, hlev]
  · intro other hmem
    have hlev : levelOK other q = true := by
      unfold levelOK
      rw [if_neg hmem]
    simp [filter_df, List.filter_cons, hlev, kwOK_nil q]

/-- Witness for `levelFilter_spec` at the concrete question `q6`. -/
theorem levelFilter_spec_witness :
    q6 ∈ filter_df [q6] q6.level []
    ∧ filter_df [q6] (ofStr "중") [] = []
    ∧ filter_df [q6] (ofStr "전체") [] = [q6] :=
  ⟨(levelFilter_spec q6).1,
   (levelFilter_spec q6).2.1 (ofStr "중") (by decide) (by decide),
   (levelFilter_spec q6).2.2 (ofStr "전체") (by decide)⟩

theorem kwOK_ab (x : Question) :
    kwOK (ofStr "a b") x = (isSubstr (ofStr "a") (hayOf x) && isSubstr (ofStr "b") (hayOf x)) := by
  unfold kwOK
  rw [show kwTokens (ofStr "a b") = [ofStr "a", ofStr "b"] from by decide]
  simp [List.all_cons]

theorem kwOK_single_a (x : Question) :
    kwOK (ofStr "a") x = isSubstr (ofStr "a") (hayOf x) := by
  unfold kwOK
  rw [show kwTokens (ofStr "a") = [ofStr "a"] from by decide]
  simp [List.all_cons]

theorem kwOK_single_b (x : Question) :
    kwOK (ofStr "b") x = isSubstr (ofStr "b") (hayOf x) := by
  unfold kwOK
  rw [show kwTokens (ofStr "b") = [ofStr "b"] from by decide]
  simp [List.all_cons]

/-- C4 (amended): a question passes `filter_df` exactly when it passes the
level condition and every whitespace token of the keyword occurs
case-insensitively in the space-joined haystack
`topic + " " + question + " " + answer` (conjunctive across tokens; a blank
keyword has no tokens and imposes no constraint); consequently the filter
for the keyword `"a b"` equals the intersection of the filters for `"a"`
and for `"b"`. -/
theorem keywordFilter_spec (df : List Question) (level kw : Str) (q : Question) :
    (q ∈ filter_df df level kw ↔
      q ∈ df ∧ levelOK level q = true ∧ ∀ t ∈ kwTokens kw, isSubstr t (hayOf q) = true)
    ∧ filter_df df level (ofStr "a b") =
        (filter_df df level (ofStr "a")).inter (filter_df df level (ofStr "b")) := by
  constructor
  · simp [filter_df, List.mem_filter, kwOK, List.all_eq_true, Bool.and_eq_true, and_assoc]
  · show filter_df df level (ofStr "a b") =
      (filter_df df level (ofStr "a")).filter
        (fun x => List.elem x (filter_df df level (ofStr "b")))
    unfold filter_df
    rw [List.filter_filter]
    apply List.filter_congr
    intro x hx
    have helem : (List.elem x ((df.filter
        (fun y => levelOK level y && kwOK (ofStr "b") y)))) =
        (levelOK level x && kwOK (ofStr "b") x) := by
      cases hc : (levelOK level x && kwOK (ofStr "b") x) with
      | true =>
        have : x ∈ df.filter (fun y => levelOK level y && kwOK (ofStr "b") y) :=
          List.mem_filter.mpr ⟨hx, hc⟩
        simpa [List.elem_eq_mem] using this
      | false =>
        have : x ∉ df.filter (fun y => levelOK level y && kwOK (ofStr "b") y) := by
          intro hmem
          rw [(List.mem_filter.mp hmem).2] at hc
          cases hc
        simpa [List.elem_eq_mem] using this
    rw [helem, kwOK_ab, kwOK_single_a, kwOK_single_b]
    cases levelOK level x <;>
      cases isSubstr (ofStr "a") (hayOf x) <;>
      cases isSubstr (ofStr "b") (hayOf x) <;> rfl

/-- C4, counterexample to the claim as stated: the token `"bc"` occurs in
the plain concatenation `topic + question + answer = "abcd"` (and no level
constraint applies), so by the claim the question should pass the filter;
the code joins the fields with spaces (`"ab cd "`), where `"bc"` does not
occur, and returns the empty filter. -/
theorem keywordFilter_counterexample :
    specKeywordMatch (ofStr "bc") q4 = true
    ∧ levelOK (ofStr "전체") q4 = true
    ∧ filter_df [q4] (ofStr "전체") (ofStr "bc") = [] := by decide

/-- Witness for `keywordFilter_spec` at concrete inputs. -/
theorem keywordFilter_spec_witness :
    q4 ∈ filter_df [q4] (ofStr "전체") (ofStr "ab cd")
    ∧ filter_df [q4] (ofStr "전체") (ofStr "a b") =
        (filter_df [q4] (ofStr "전체") (ofStr "a")).inter
          (filter_df [q4] (ofStr "전체") (ofStr "b")) :=
  ⟨(keywordFilter_spec [q4] (ofStr "전체") (ofStr "ab cd") q4).1.mpr
      ⟨by decide, by decide, by decide⟩,
   (keywordFilter_spec [q4] (ofStr "전체") [] q4).2⟩

theorem mem_addSeen_left {x : Str} {seen : List Str} (i : Str) (h : x ∈ seen) :
    x ∈ addSeen seen i := by
  unfold addSeen
  split
  · exact h
  · exact List.mem_append_left _ h

theorem self_mem_addSeen (seen : List Str) (i : Str) : i ∈ addSeen seen i := by
  unfold addSeen
  split
  · assumption
  · exact List.mem_append_right _ (List.mem_singleton.mpr rfl)

theorem pick_next_mem {df : List Question} {level keyword : Str} {seen : List Str}
    {k : Nat} {q : Question} (h : pick_next df level keyword seen k = some q) :
    q ∈ filter_df df level keyword ∧ q.id ∉ seen := by
  unfold pick_next at h
  split at h
  · cases h
  · have hq : q ∈ candidatePool df level keyword seen := by
      cases h
      exact List.get_mem _ _ _
    have h2 := List.mem_filter.mp hq
    refine ⟨h2.1, ?_⟩
    simpa using h2.2

theorem pick_next_exhausted {df : List Question} {level keyword : Str} {seen : List Str}
    (k : Nat) :
    candidatePool df level keyword seen = [] ↔
      pick_next df level keyword seen k = none := by
  constructor
  · intro h
    unfold pick_next
    rw [dif_pos (by rw [h]; rfl)]
  · intro h
    unfold pick_next at h
    split at h
    · exact List.length_eq_zero.mp (by assumption)
    · cases h

/-- C5: every selected next question comes from the filtered set minus the
seen set — never a seen id, and in the quiz continuation never the question
just answered — and when that pool is empty no selection is made: the quiz
stage commits the answer and transitions to the result stage. -/
theorem selection_spec (df : List Question) (level keyword : Str) (seen : List Str)
    (k : Nat) :
    (∀ q, pick_next df level keyword seen k = some q →
        q ∈ filter_df df level keyword ∧ q.id ∉ seen)
    ∧ (candidatePool df level keyword seen = [] ↔
        pick_next df level keyword seen k = none)
    ∧ (∀ (ledger : List PRow) (cur : Question) (user ts : Str) (uaRaw : Option Str),
        candidatePool df level keyword (addSeen seen cur.id) = [] →
          (commit_current_answer_and_mark_next df level keyword ledger seen cur user ts
            uaRaw false k).2.2 = NextOutcome.toResult)
    ∧ (∀ (ledger : List PRow) (cur : Question) (user ts : Str) (uaRaw : Option Str)
        (q : Question),
        (commit_current_answer_and_mark_next df level keyword ledger seen cur user ts
            uaRaw false k).2.2 = NextOutcome.toQuiz q →
          q ∈ filter_df df level keyword ∧ q.id ∉ seen ∧ q.id ≠ cur.id) := by
  refine ⟨fun q h => pick_next_mem h, pick_next_exhausted k, ?_, ?_⟩
  · intro ledger cur user ts uaRaw hpool
    have hp : pick_next df level keyword (addSeen seen cur.id) k = none :=
      (pick_next_exhausted k).mp hpool
    simp [commit_current_answer_and_mark_next, hp]
  · intro ledger cur user ts uaRaw q hq
    cases hp : pick_next df level keyword (addSeen seen cur.id) k with
    | none => simp [commit_current_answer_and_mark_next, hp] at hq
    | some q2 =>
      simp only [commit_current_answer_and_mark_next, hp] at hq
      cases hq
      have h2 := pick_next_mem hp
      refine ⟨h2.1, ?_, ?_⟩
      · exact fun hmem => h2.2 (mem_addSeen_left cur.id hmem)
      · exact fun heq => h2.2 (heq ▸ self_mem_addSeen seen cur.id)

/-- Witness for `selection_spec` at concrete inputs: a fresh pool yields a
pick outside the seen set, and after answering the only question the quiz
stage transitions to the result stage. -/
theorem selection_spec_witness :
    (q5 ∈ filter_df [q5] (ofStr "전체") [] ∧ q5.id ∉ ([] : List Str))
    ∧ (commit_current_answer_and_mark_next [q5] (ofStr "전체") [] [] [] q5
        (ofStr "u") (ofStr "t") none false 0).2.2 = NextOutcome.toResult :=
  ⟨(selection_spec [q5] (ofStr "전체") [] [] 0).1 q5 (by decide),
   (selection_spec [q5] (ofStr "전체") [] [] 0).2.2.1 [] q5 (ofStr "u") (ofStr "t") none
     (by decide)⟩

/-! ### Progress ledger -/

theorem filter_two_disjoint_length {α : Type} {p q : α → Bool}
    (h : ∀ x, ¬(p x = true ∧ q x = true)) :
    ∀ (l : List α), (l.filter p).length + (l.filter q).length ≤ l.length := by
  intro l
  induction l with
  | nil => simp
  | cons x xs ih =>
    simp only [List.filter_cons]
    cases hp : p x with
    | true =>
      have hq : q x = false := by
        cases hq2 : q x with
        | true => exact absurd ⟨hp, hq2⟩ (h x)
        | false => rfl
      simp only [hp, hq, if_true, if_false, List.length_cons]
      simp only [Bool.false_eq_true, if_false]
      omega
    | false =>
      cases hq : q x <;>
        simp only [hp, hq, if_true, if_false, Bool.false_eq_true, List.length_cons] <;>
        omega

theorem roundHalfEvenTenths_bound (c t : Nat) (ht : t ≠ 0) :
    2 * (((roundHalfEvenTenths c t : Int) * t - 1000 * c).natAbs) ≤ t := by
  have hdm : t * ((1000 * c) / t) + (1000 * c) % t = 1000 * c := Nat.div_add_mod _ _
  have hmlt : (1000 * c) % t < t := Nat.mod_lt _ (Nat.pos_of_ne_zero ht)
  have h0 : ((t : Int)) * (((1000 * c) / t : Nat) : Int) + (((1000 * c) % t : Nat) : Int)
      = 1000 * (c : Int) := by exact_mod_cast hdm
  have h1 : (((1000 * c) / t : Nat) : Int) * (t : Int) - 1000 * (c : Int)
      = -((((1000 * c) % t : Nat)) : Int) := by linarith [h0]
  have h2 : ((((1000 * c) / t + 1 : Nat)) : Int) * (t : Int) - 1000 * (c : Int)
      = (t : Int) - (((1000 * c) % t : Nat) : Int) := by push_cast; linarith [h0]
  unfold roundHalfEvenTenths
  split_ifs with hb1 hb2 hb3
  · rw [h1]
    simp only [Int.natAbs_neg, Int.natAbs_ofNat]
    omega
  · rw [h2]
    omega
  · rw [h1]
    simp only [Int.natAbs_neg, Int.natAbs_ofNat]
    omega
  · rw [h2]
    omega

theorem recompute_shape (ledger : List PRow) (user : Str)
    (problems : Option (List Question)) :
    (userRows ledger user = []
        ∧ recompute_from_progress (some ledger) user problems = zeroStats)
    ∨ (userRows ledger user ≠ []
        ∧ recompute_from_progress (some ledger) user problems =
          ⟨(userRows ledger user).length,
           ((userRows ledger user).filter (fun r => decide (r.status = sCorrect))).length,
           (userRows ledger user).length
             - ((userRows ledger user).filter (fun r => decide (r.status = sCorrect))).length
             - ((userRows ledger user).filter (fun r => decide (r.status = sBlank))).length,
           ((userRows ledger user).filter (fun r => decide (r.status = sBlank))).length,
           roundHalfEvenTenths
             ((userRows ledger user).filter (fun r => decide (r.status = sCorrect))).length
             (userRows ledger user).length,
           (((userRows ledger user).filter (fun r => decide (r.status = sCorrect))).map
             (fun r => LEVEL_SCORE (effLevel problems r))).sum⟩) := by
  by_cases hl : ledger = []
  · left
    subst hl
    exact ⟨rfl, rfl⟩
  · by_cases hm : userRows ledger user = []
    · left
      refine ⟨hm, ?_⟩
      simp only [recompute_from_progress, if_neg hl, hm, if_pos]
    · right
      refine ⟨hm, ?_⟩
      simp only [recompute_from_progress, if_neg hl, if_neg hm]

theorem recompute_total (ledger : List PRow) (user : Str)
    (problems : Option (List Question)) :
    (recompute_from_progress (some ledger) user problems).total
      = (userRows ledger user).length := by
  rcases recompute_shape ledger user problems with ⟨hm, hz⟩ | ⟨_, he⟩
  · rw [hz, hm]; rfl
  · rw [he]

theorem userRows_append (ledger : List PRow) (ts user qid status level : Str) :
    userRows (append_progress ledger ts user qid status level) user
      = userRows ledger user ++ [⟨ts, pyStrip user, qid, status, level⟩] := by
  unfold append_progress userRows
  rw [List.filter_append]
  congr 1
  simp [pyStrip_idem]

/-- C2: `recompute` filters the ledger to the user's rows and derives
total, correct, blank as counts, wrong as `total - correct - blank` (so the
three add up to the total), rate as `correct/total*100` rounded to one
decimal (within half a tenth of the exact ratio; 0 when the total is 0),
and score as the sum of the per-level weights over the correct rows; it
returns all-zero stats when the ledger is missing/unreadable, empty, or has
no rows for the user; and one `append` for the user grows the recomputed
total by exactly one. -/
theorem recompute_append_spec (ledger : List PRow) (user : Str)
    (problems : Option (List Question)) :
    recompute_from_progress none user problems = zeroStats
    ∧ recompute_from_progress (some []) user problems = zeroStats
    ∧ (userRows ledger user = [] →
        recompute_from_progress (some ledger) user problems = zeroStats)
    ∧ (recompute_from_progress (some ledger) user problems).total
        = (userRows ledger user).length
    ∧ (recompute_from_progress (some ledger) user problems).correct
        = ((userRows ledger user).filter (fun r => decide (r.status = sCorrect))).length
    ∧ (recompute_from_progress (some ledger) user problems).blank
        = ((userRows ledger user).filter (fun r => decide (r.status = sBlank))).length
    ∧ (recompute_from_progress (some ledger) user problems).wrong
        = (recompute_from_progress (some ledger) user problems).total
          - (recompute_from_progress (some ledger) user problems).correct
          - (recompute_from_progress (some ledger) user problems).blank
    ∧ (recompute_from_progress (some ledger) user problems).correct
        + (recompute_from_progress (some ledger) user problems).wrong
        + (recompute_from_progress (some ledger) user problems).blank
        = (recompute_from_progress (some ledger) user problems).total
    ∧ ((recompute_from_progress (some ledger) user problems).total = 0 →
        (recompute_from_progress (some ledger) user problems).rateTenths = 0)
    ∧ 2 * ((((recompute_from_progress (some ledger) user problems).rateTenths : Int)
          * (recompute_from_progress (some ledger) user problems).total
          - 1000 * (recompute_from_progress (some ledger) user problems).correct).natAbs)
        ≤ (recompute_from_progress (some ledger) user problems).total
    ∧ (recompute_from_progress (some ledger) user problems).score
        = (((userRows ledger user).filter (fun r => decide (r.status = sCorrect))).map
            (fun r => LEVEL_SCORE (effLevel problems r))).sum
    ∧ ∀ ts qid status level,
        (recompute_from_progress
            (some (append_progress ledger ts user qid status level)) user problems).total
          = (recompute_from_progress (some ledger) user problems).total + 1 := by
  have hdisj : ∀ x : PRow,
      ¬((decide (x.status = sCorrect)) = true ∧ (decide (x.status = sBlank)) = true) := by
    intro x hx
    obtain ⟨h1, h2⟩ := hx
    simp only [decide_eq_true_eq] at h1 h2
    rw [h1] at h2
    exact absurd h2 (by decide)
  have happ : ∀ ts qid status level,
      (recompute_from_progress
          (some (append_progress ledger ts user qid status level)) user problems).total
        = (recompute_from_progress (some ledger) user problems).total + 1 := by
    intro ts qid status level
    rw [recompute_total, recompute_total, userRows_append]
    simp
  rcases recompute_shape ledger user problems with ⟨hm, hz⟩ | ⟨hm, he⟩
  · refine ⟨rfl, rfl, fun _ => hz, ?_, ?_, ?_, ?_, ?_, ?_, ?_, ?_, happ⟩
    · rw [hz, hm]; rfl
    · rw [hz, hm]; rfl
    · rw [hz, hm]; rfl
    · rw [hz]; rfl
    · rw [hz]; rfl
    · rw [hz]; intro _; rfl
    · rw [hz]; decide
    · rw [hz, hm]; rfl
  · have hle := filter_two_disjoint_length hdisj (userRows ledger user)
    have hne : (userRows ledger user).length ≠ 0 :=
      fun h0 => hm (List.length_eq_zero.mp h0)
    refine ⟨rfl, rfl, fun h0 => absurd h0 hm, ?_, ?_, ?_, ?_, ?_, ?_, ?_, ?_, happ⟩
    · rw [he]
    · rw [he]
    · rw [he]
    · rw [he]
    · rw [he]
      show ((userRows ledger user).filter (fun r => decide (r.status = sCorrect))).length
          + ((userRows ledger user).length
            - ((userRows ledger user).filter (fun r => decide (r.status = sCorrect))).length
            - ((userRows ledger user).filter (fun r => decide (r.status = sBlank))).length)
          + ((userRows ledger user).filter (fun r => decide (r.status = sBlank))).length
          = (userRows ledger user).length
      omega
    · rw [he]
      intro h0
      exact absurd h0 hne
    · rw [he]
      exact roundHalfEvenTenths_bound _ _ hne
    · rw [he]

/-- Witness for `recompute_append_spec` at concrete inputs: a user with no
rows gets all-zero stats, an empty total forces a zero rate, and one append
grows the total by exactly one. -/
theorem recompute_append_spec_witness :
    recompute_from_progress (some ledger2) (ofStr "u9") none = zeroStats
    ∧ (recompute_from_progress (some ([] : List PRow)) (ofStr "u1") none).rateTenths = 0
    ∧ (recompute_from_progress
          (some (append_progress ledger2 (ofStr "t4") (ofStr "u1") (ofStr "q4")
            sCorrect (ofStr "하"))) (ofStr "u1") none).total
        = (recompute_from_progress (some ledger2) (ofStr "u1") none).total + 1 :=
  ⟨(recompute_append_spec ledger2 (ofStr "u9") none).2.2.1 (by decide),
   (recompute_append_spec ([] : List PRow) (ofStr "u1") none).2.2.2.2.2.2.2.2.1 (by decide),
   (recompute_append_spec ledger2 (ofStr "u1") none).2.2.2.2.2.2.2.2.2.2.2
     (ofStr "t4") (ofStr "q4") sCorrect (ofStr "하")⟩

/-! ### Ranking table -/

theorem replace_ranking_rows (table : Option (List RRow)) (ts user : Str) (stats : Stats) :
    rowsFor (replace_ranking table ts user stats) user = [⟨ts, pyStrip user, stats⟩] := by
  unfold replace_ranking rowsFor
  rw [List.filter_append]
  have h1 : (((match table with | none => [] | some t => t).map
      (fun (r : RRow) => { r with user_name := pyStrip r.user_name })).filter
        (fun (r : RRow) => decide (r.user_name ≠ pyStrip user))).filter
        (fun (r : RRow) => decide (pyStrip r.user_name = pyStrip user)) = [] := by
    rw [List.filter_eq_nil_iff]
    intro a ha
    have hmem := List.mem_filter.mp ha
    have hne : a.user_name ≠ pyStrip user := by simpa using hmem.2
    rcases List.mem_map.mp hmem.1 with ⟨b, _, hb⟩
    have ha2 : a.user_name = pyStrip b.user_name := by rw [← hb]
    have hstrip : pyStrip a.user_name = a.user_name := by
      rw [ha2]
      exact pyStrip_idem _
    simp [hstrip, hne]
  rw [h1]
  simp [pyStrip_idem]

theorem replace_ranking_uniq (table : List RRow) (ts user : Str) (stats : Stats)
    (h : uniqNames table) : uniqNames (replace_ranking (some table) ts user stats) := by
  unfold replace_ranking uniqNames
  apply List.pairwise_append.mpr
  refine ⟨?_, List.pairwise_singleton _ _, ?_⟩
  · have hp : List.Pairwise (fun a b => pyStrip a.user_name ≠ pyStrip b.user_name)
        (table.map (fun (r : RRow) => { r with user_name := pyStrip r.user_name })) := by
      rw [List.pairwise_map]
      exact h.imp (fun hab => by simpa [pyStrip_idem] using hab)
    exact hp.sublist (List.filter_sublist _)
  · intro a ha b hb
    rw [List.mem_singleton] at hb
    subst hb
    have hmem := List.mem_filter.mp ha
    have hne : a.user_name ≠ pyStrip user := by simpa using hmem.2
    rcases List.mem_map.mp hmem.1 with ⟨c, _, hc⟩
    have ha2 : a.user_name = pyStrip c.user_name := by rw [← hc]
    show pyStrip a.user_name ≠ pyStrip (pyStrip user)
    rw [pyStrip_idem, ha2, pyStrip_idem, ← ha2]
    exact hne

/-- C3: `save(user, stats)` leaves exactly one row for the user — the fresh
one built from `stats` — removing every prior row whose (stripped) name
matches; two successive saves leave exactly the second call's row; and a
table with pairwise-distinct user names keeps that invariant across every
save. -/
theorem replace_ranking_spec (table : List RRow) (ts1 ts2 user : Str)
    (stats1 stats2 : Stats) :
    rowsFor (replace_ranking (some table) ts1 user stats1) user
      = [⟨ts1, pyStrip user, stats1⟩]
    ∧ rowsFor (replace_ranking (some (replace_ranking (some table) ts1 user stats1))
        ts2 user stats2) user = [⟨ts2, pyStrip user, stats2⟩]
    ∧ (uniqNames table → uniqNames (replace_ranking (some table) ts1 user stats1)) :=
  ⟨replace_ranking_rows _ _ _ _, replace_ranking_rows _ _ _ _,
   replace_ranking_uniq _ _ _ _⟩

/-- Witness for `replace_ranking_spec` at concrete inputs. -/
theorem replace_ranking_spec_witness :
    rowsFor (replace_ranking (some rank3) (ofStr "t1") (ofStr "alice")
        { zeroStats with correct := 2 }) (ofStr "alice")
      = [⟨ofStr "t1", ofStr "alice", { zeroStats with correct := 2 }⟩]
    ∧ uniqNames (replace_ranking (some rank3) (ofStr "t1") (ofStr "alice")
        { zeroStats with correct := 2 }) :=
  ⟨(replace_ranking_spec rank3 (ofStr "t1") (ofStr "t1") (ofStr "alice")
      { zeroStats with correct := 2 } { zeroStats with correct := 2 }).1,
   (replace_ranking_spec rank3 (ofStr "t1") (ofStr "t1") (ofStr "alice")
      { zeroStats with correct := 2 } { zeroStats with correct := 2 }).2.2
     (by unfold uniqNames; decide)⟩

theorem insertDesc_perm (x : RRow) : ∀ (l : List RRow), (insertDesc x l).Perm (x :: l) := by
  intro l
  induction l with
  | nil => exact List.Perm.refl _
  | cons y ys ih =>
    unfold insertDesc
    split
    · exact ((ih.cons y).trans (List.Perm.swap x y ys))
    · exact List.Perm.refl _

theorem insertDesc_sorted (x : RRow) :
    ∀ {l : List RRow},
      l.Pairwise (fun a b => b.stats.correct ≤ a.stats.correct) →
      (insertDesc x l).Pairwise (fun a b => b.stats.correct ≤ a.stats.correct) := by
  intro l
  induction l with
  | nil => intro _; exact List.pairwise_singleton _ _
  | cons y ys ih =>
    intro h
    rw [List.pairwise_cons] at h
    unfold insertDesc
    split
    · rw [List.pairwise_cons]
      constructor
      · intro z hz
        have hz2 : z ∈ x :: ys := (insertDesc_perm x ys).mem_iff.mp hz
        rcases List.mem_cons.mp hz2 with hc | hc
        · subst hc
          omega
        · exact h.1 z hc
      · exact ih h.2
    · rw [List.pairwise_cons]
      constructor
      · intro z hz
        rcases List.mem_cons.mp hz with hc | hc
        · subst hc
          omega
        · have := h.1 z hc
          omega
      · rw [List.pairwise_cons]
        exact h
    
theorem insertDesc_filter_key (x : RRow) (c : Nat) :
    ∀ (l : List RRow),
      (insertDesc x l).filter (fun r => decide (r.stats.correct = c))
        = if x.stats.correct = c
          then x :: l.filter (fun r => decide (r.stats.correct = c))
          else l.filter (fun r => decide (r.stats.correct = c)) := by
  intro l
  induction l with
  | nil =>
    unfold insertDesc
    rw [List.filter_singleton]
    split_ifs with h1 <;> simp [h1]
  | cons y ys ih =>
    unfold insertDesc
    split
    · rename_i hlt
      rw [List.filter_cons, List.filter_cons, ih]
      by_cases hy : y.stats.correct = c
      · by_cases hx : x.stats.correct = c
        · exfalso
          omega
        · simp [hy, hx]
      · by_cases hx : x.stats.correct = c
        · simp [hy, hx]
        · simp [hy, hx]
    · by_cases hx : x.stats.correct = c
      · simp [List.filter_cons, hx]
      · simp [List.filter_cons, hx]

theorem sortDesc_perm : ∀ (l : List RRow), (sortDesc l).Perm l := by
  intro l
  induction l with
  | nil => exact List.Perm.refl _
  | cons x xs ih =>
    unfold sortDesc
    exact (insertDesc_perm x (sortDesc xs)).trans (ih.cons x)

theorem sortDesc_sorted : ∀ (l : List RRow),
    (sortDesc l).Pairwise (fun a b => b.stats.correct ≤ a.stats.correct) := by
  intro l
  induction l with
  | nil => exact List.Pairwise.nil
  | cons x xs ih =>
    unfold sortDesc
    exact insertDesc_sorted x ih

theorem sortDesc_stable (c : Nat) : ∀ (l : List RRow),
    (sortDesc l).filter (fun r => decide (r.stats.correct = c))
      = l.filter (fun r => decide (r.stats.correct = c)) := by
  intro l
  induction l with
  | nil => rfl
  | cons x xs ih =>
    unfold sortDesc
    rw [insertDesc_filter_key, ih, List.filter_cons]
    by_cases hx : x.stats.correct = c <;> simp [hx]

/-- C7, counterexample to the claim as stated: on two rows tied at
`correct=5` the code assigns ranks `[1, 2]` (the 1-based row position),
whereas a dense rank would assign `[1, 1]` to tied rows. -/
theorem load_ranking_counterexample :
    (load_ranking_sorted (some [rrC1, rrC2])).map Prod.fst = [1, 2]
    ∧ rrC1.stats.correct = rrC2.stats.correct := by decide

/-- C7 (amended): `load_sorted` reads all rows and returns them sorted
descending by the `correct` count with a stable sort (rows with equal
counts keep their prior relative order) and attaches a 1-based positional
rank column `1..n` (equal to the dense rank only when the counts are
distinct); a missing or unreadable store yields the empty result; on the
two-row scenario `(a, correct=3), (b, correct=5)` the output is
`[b, a]` with ranks `[1, 2]`. -/
theorem load_ranking_sorted_spec (l : List RRow) :
    load_ranking_sorted none = []
    ∧ (load_ranking_sorted (some l)).map Prod.snd = sortDesc l
    ∧ (sortDesc l).Perm l
    ∧ (sortDesc l).Pairwise (fun a b => b.stats.correct ≤ a.stats.correct)
    ∧ (∀ c, (sortDesc l).filter (fun r => decide (r.stats.correct = c))
        = l.filter (fun r => decide (r.stats.correct = c)))
    ∧ (load_ranking_sorted (some l)).map Prod.fst
        = (List.range l.length).map (fun i => i + 1)
    ∧ load_ranking_sorted (some [rrA, rrB]) = [(1, rrB), (2, rrA)] := by
  have hlen : (sortDesc l).length = l.length := (sortDesc_perm l).length_eq
  refine ⟨rfl, ?_, sortDesc_perm l, sortDesc_sorted l, fun c => sortDesc_stable c l, ?_,
    by decide⟩
  · show List.map Prod.snd
        (if l = [] then []
         else ((List.range (sortDesc l).length).map (fun i => i + 1)).zip (sortDesc l))
      = sortDesc l
    split_ifs with h0
    · subst h0
      rfl
    · apply List.map_snd_zip
      simp
  · show List.map Prod.fst
        (if l = [] then []
         else ((List.range (sortDesc l).length).map (fun i => i + 1)).zip (sortDesc l))
      = List.map (fun i => i + 1) (List.range l.length)
    split_ifs with h0
    · subst h0
      rfl
    · rw [List.map_fst_zip, hlen]
      simp

/-! ### Image cells -/

theorem resolveImageEntry_eq_some (p u : Str) :
    resolveImageEntry p = some u ↔
      (u = pyStrip p ∧ u ≠ []
       ∧ ¬(pyLower u = ofStr "nan" ∨ pyLower u = ofStr "none" ∨ pyLower u = ofStr "-")
       ∧ (startsWith (ofStr "http://") (pyLower u)
          || startsWith (ofStr "https://") (pyLower u)) = true) := by
  unfold resolveImageEntry
  split_ifs with h1 h2 h3
  · constructor
    · intro h
      cases h
    · rintro ⟨hu, hne, _, _⟩
      exact absurd (hu.trans h1) hne
  · constructor
    · intro h
      cases h
    · rintro ⟨hu, _, hph, _⟩
      exact absurd (hu ▸ h2) hph
  · constructor
    · intro h
      rcases Option.some_inj.mp h with h4
      subst h4
      exact ⟨rfl, h1, h2, h3⟩
    · rintro ⟨hu, _, _, _⟩
      rw [hu]
  · constructor
    · intro h
      cases h
    · rintro ⟨hu, _, _, hst⟩
      exact absurd (hu ▸ hst) h3

/-- C9, counterexample to the claim as stated: a bare filename entry is a
non-empty entry, yet the code resolves it to nothing at all — there is no
local-image-directory resolution in this program; only http/https URLs
survive. -/
theorem resolve_image_counterexample :
    resolve_image_items (ofStr "pic.png") = []
    ∧ pyStrip (ofStr "pic.png") ≠ []
    ∧ splitRuns isImgDelim (pyStrip (ofStr "pic.png")) = [ofStr "pic.png"] := by decide

set_option maxRecDepth 4096 in
/-- C9 (amended): the image cell is split into entries on runs of
`;`/`,`/newline; an entry survives exactly when, after stripping, it is
non-empty, is not one of the placeholders `nan`/`none`/`-`, and its
lowercase form starts with `http://` or `https://` (it is then kept
verbatim); every other entry — bare filenames included — is dropped. -/
theorem resolve_image_items_spec (raw u : Str) :
    (u ∈ resolve_image_items raw ↔
      raw ≠ [] ∧ ∃ p ∈ splitRuns isImgDelim (pyStrip raw),
        u = pyStrip p ∧ u ≠ []
        ∧ ¬(pyLower u = ofStr "nan" ∨ pyLower u = ofStr "none" ∨ pyLower u = ofStr "-")
        ∧ (startsWith (ofStr "http://") (pyLower u)
           || startsWith (ofStr "https://") (pyLower u)) = true)
    ∧ resolve_image_items (ofStr "img.png; http://a.com/x.png,nan\nhttps://B.com/Y.png")
        = [ofStr "http://a.com/x.png", ofStr "https://B.com/Y.png"] := by
  constructor
  · unfold resolve_image_items
    split_ifs with h0
    · subst h0
      simp
    · rw [List.mem_filterMap]
      constructor
      · rintro ⟨p, hp, hsome⟩
        exact ⟨h0, p, hp, (resolveImageEntry_eq_some p u).mp hsome⟩
      · rintro ⟨_, p, hp, hcond⟩
        exact ⟨p, hp, (resolveImageEntry_eq_some p u).mpr hcond⟩
  · decide
